import Mathlib

/-!
Verification of the TrueFace identity-matching engine.

The definitions below are a shallow embedding of the matching core of the
repository: the cosine-similarity metric of `backend/utils.py`, the
`ANNIndex` wrapper of `backend/ann_index.py`, and the matching operations
`find_best_match`, `verify_user` and `search_candidates` of `backend/db.py`.
Floating-point arithmetic is modeled over `ℝ`; the MongoDB collections are
modeled as an explicit in-memory store value; raising `DBUnavailable` is
modeled with `Except Unit`.
-/

namespace TrueFace

/-- The literal `1e-10` added to every similarity denominator in
`backend/utils.py` (`cosine_similarity`) and in the inline score
computations of `backend/db.py`. -/
noncomputable def eps : ℝ := 1e-10

/-- Sum of squares of the entries of a vector (the radicand of
`np.linalg.norm`). -/
def sumSq (a : List ℝ) : ℝ := (a.map fun x => x * x).sum

/-- `np.dot(a, b)`: the dot product. In the source both vectors always have
equal length (NumPy raises otherwise); `zipWith` restricts to the common
prefix, which coincides with the source on equal-length inputs. -/
def dotL (a b : List ℝ) : ℝ := (List.zipWith (· * ·) a b).sum

/-- `np.linalg.norm(a)`: the Euclidean norm. -/
noncomputable def normL (a : List ℝ) : ℝ := Real.sqrt (sumSq a)

/-- `cosine_similarity` from `backend/utils.py`; the identical formula
`np.dot(q, emb) / (np.linalg.norm(q) * np.linalg.norm(emb) + 1e-10)` is
inlined at each scoring site of `backend/db.py`. -/
noncomputable def cosine_similarity (a b : List ℝ) : ℝ :=
  dotL a b / (normL a * normL b + eps)

lemma eps_pos : 0 < eps := by norm_num [eps]

lemma sumSq_nonneg (a : List ℝ) : 0 ≤ sumSq a := by
  refine List.sum_nonneg ?_
  intro x hx
  rcases List.mem_map.mp hx with ⟨y, _, rfl⟩
  exact mul_self_nonneg y

lemma normL_nonneg (a : List ℝ) : 0 ≤ normL a := Real.sqrt_nonneg _

/-- The inductive step of Cauchy–Schwarz for sums. -/
lemma cs_step (x y d A B : ℝ) (hA : 0 ≤ A) (hB : 0 ≤ B) (hd : d ^ 2 ≤ A * B) :
    (x * y + d) ^ 2 ≤ (x * x + A) * (y * y + B) := by
  rcases eq_or_lt_of_le hB with hB0 | hBpos
  · rw [← hB0] at hd ⊢
    have hd2 : d ^ 2 = 0 := le_antisymm (by nlinarith) (sq_nonneg d)
    have hd0 : d = 0 := sq_eq_zero_iff.mp hd2
    subst hd0
    nlinarith [mul_nonneg hA (mul_self_nonneg y)]
  · have hG : 0 ≤ A * B - d ^ 2 := by linarith
    nlinarith [sq_nonneg (B * x - y * d), mul_nonneg (mul_self_nonneg y) hG,
      mul_nonneg hBpos.le hG, hBpos]

/-- Cauchy–Schwarz for list dot products, squared form. -/
lemma dotL_sq_le (a : List ℝ) : ∀ b : List ℝ, dotL a b ^ 2 ≤ sumSq a * sumSq b := by
  induction a with
  | nil =>
    intro b
    simp [dotL, sumSq]
  | cons x a ih =>
    intro b
    cases b with
    | nil => simp [dotL, sumSq]
    | cons y b =>
      have hxa : sumSq (x :: a) = x * x + sumSq a := by simp [sumSq]
      have hyb : sumSq (y :: b) = y * y + sumSq b := by simp [sumSq]
      have hdot : dotL (x :: a) (y :: b) = x * y + dotL a b := by simp [dotL]
      rw [hxa, hyb, hdot]
      exact cs_step x y (dotL a b) (sumSq a) (sumSq b) (sumSq_nonneg a)
        (sumSq_nonneg b) (ih b)

/-- Cauchy–Schwarz: the dot product is bounded by the product of the norms. -/
lemma abs_dotL_le (a b : List ℝ) : |dotL a b| ≤ normL a * normL b := by
  calc |dotL a b| = Real.sqrt (dotL a b ^ 2) := (Real.sqrt_sq_eq_abs _).symm
    _ ≤ Real.sqrt (sumSq a * sumSq b) := Real.sqrt_le_sqrt (dotL_sq_le a b)
    _ = normL a * normL b := by rw [normL, normL, Real.sqrt_mul (sumSq_nonneg a)]

lemma denom_pos (a b : List ℝ) : 0 < normL a * normL b + eps :=
  add_pos_of_nonneg_of_pos (mul_nonneg (normL_nonneg a) (normL_nonneg b)) eps_pos

/-- Every computed cosine score is strictly above the `-1.0` sentinel used by
the naive scan of `find_best_match`. -/
lemma neg_one_lt_sim (a b : List ℝ) : -1 < cosine_similarity a b := by
  rw [cosine_similarity, lt_div_iff (denom_pos a b)]
  have h1 : -(normL a * normL b) ≤ dotL a b := (abs_le.mp (abs_dotL_le a b)).1
  have := eps_pos
  nlinarith

lemma dotL_comm (a : List ℝ) : ∀ b : List ℝ, dotL a b = dotL b a := by
  induction a with
  | nil => intro b; cases b <;> simp [dotL]
  | cons x a ih =>
    intro b
    cases b with
    | nil => simp [dotL]
    | cons y b =>
      have := ih b
      simp only [dotL, List.zipWith_cons_cons, List.sum_cons] at this ⊢
      rw [mul_comm x y, this]

lemma dotL_self (a : List ℝ) : dotL a a = sumSq a := by
  induction a with
  | nil => simp [dotL, sumSq]
  | cons x a ih => simp only [dotL, sumSq, List.zipWith_cons_cons, List.map_cons,
      List.sum_cons] at ih ⊢; rw [ih]

/-- C7 -- `cosine_similarity` is symmetric, and on a non-degenerate vector
(sum of squares at least 1, so that the `1e-10` denominator slack is
negligible) the self-similarity is within `1e-10` of `1`. -/
theorem C7_similarity_symm_self_near_one (a b : List ℝ) :
    (a.length = b.length → cosine_similarity a b = cosine_similarity b a) ∧
    (1 ≤ dotL a a → |cosine_similarity a a - 1| ≤ eps) := by
  constructor
  · intro _
    rw [cosine_similarity, cosine_similarity, dotL_comm, mul_comm (normL a) (normL b)]
  · intro h1
    have hS : dotL a a = sumSq a := dotL_self a
    have h1' : (1 : ℝ) ≤ sumSq a := hS ▸ h1
    have hmul : normL a * normL a = sumSq a := Real.mul_self_sqrt (sumSq_nonneg a)
    have hpos : (0 : ℝ) < sumSq a + eps := by nlinarith [eps_pos]
    have hsim : cosine_similarity a a = sumSq a / (sumSq a + eps) := by
      rw [cosine_similarity, hS, hmul]
    rw [hsim]
    have hle : sumSq a / (sumSq a + eps) ≤ 1 := by
      rw [div_le_one hpos]
      nlinarith [eps_pos]
    have heq : 1 - sumSq a / (sumSq a + eps) = eps / (sumSq a + eps) := by
      field_simp
    rw [abs_sub_comm, abs_of_nonneg (by linarith), heq, div_le_iff hpos]
    nlinarith [eps_pos]

/-- C7 witness: at `a = b = [1]` the hypotheses hold and the conclusions are
realized. -/
theorem C7_witness :
    ([(1 : ℝ)].length = [(1 : ℝ)].length ∧ (1 : ℝ) ≤ dotL [1] [1]) ∧
    (cosine_similarity [(1 : ℝ)] [1] = cosine_similarity [1] [1] ∧
      |cosine_similarity [(1 : ℝ)] [1] - 1| ≤ eps) := by
  have hdot : (1 : ℝ) ≤ dotL [1] [1] := by norm_num [dotL]
  exact ⟨⟨rfl, hdot⟩, (C7_similarity_symm_self_near_one [1] [1]).1 rfl,
    (C7_similarity_symm_self_near_one [1] [1]).2 hdot⟩

/-!
### Data model

A user document of the `users` collection: `_id`, `name`, and the list of
faces, each face carrying one embedding. Vectors are assumed
dimension-consistent, as in the source (NumPy raises on a mismatch and the
spec treats dimensionality as fixed at build time).
-/

structure UserDoc where
  uid : String
  name : String
  faces : List (List ℝ)

/-- The result dict `{"user_id", "name", "confidence"}` built by the
matching operations of `backend/db.py`. -/
structure MatchResult where
  user_id : String
  name : String
  confidence : ℝ

/-- The database as seen by `backend/db.py`: never connected (module-level
`_db is None`, so `_ensure_db` raises), connected but unreachable (every
collection operation raises a PyMongo error, re-raised as `DBUnavailable`),
or up with the current list of user documents. -/
inductive Store where
  | notConnected : Store
  | unreachable : Store
  | up : List UserDoc → Store

/-- `_ensure_db()`: raises `DBUnavailable` iff the module was never
connected. -/
def ensureDb : Store → Except Unit Unit
  | .notConnected => .error ()
  | _ => .ok ()

/-- `users.find_one({"_id": ObjectId(uid)})` wrapped in the PyMongo
error-to-`DBUnavailable` translation used throughout `backend/db.py`. -/
def findOne : Store → String → Except Unit (Option UserDoc)
  | .notConnected, _ => .error ()
  | .unreachable, _ => .error ()
  | .up us, uid => .ok (us.find? fun u => u.uid == uid)

/-- The `if emb:` truthiness filter of `_all_embeddings_with_user`: a face
whose embedding is absent or empty is skipped. -/
def keepFaces (fs : List (List ℝ)) : List (List ℝ) := fs.filter fun e => !e.isEmpty

/-- `_all_embeddings_with_user()` from `backend/db.py`: enumerates
`(uid, name, embedding)` for every kept face of every user, raising
`DBUnavailable` when the store cannot be read. -/
def all_embeddings_with_user : Store → Except Unit (List (String × String × List ℝ))
  | .notConnected => .error ()
  | .unreachable => .error ()
  | .up us => .ok (us.bind fun u => (keepFaces u.faces).map fun e => (u.uid, u.name, e))

/-!
### The approximate index as seen from `backend/db.py`

`_ann_index.knn(...)` calls into the native hnswlib library. A call either
raises or returns a list of `(identity_id, approximate_similarity)` pairs;
`none` at the use sites models `_ann_index is None`.
-/

inductive KnnOutcome where
  | raise : KnnOutcome
  | ok : List (String × ℝ) → KnnOutcome

/-- The re-scoring loop of the ANN branch of `find_best_match`, also the
body of `verify_user`: `best_score = 0.0` then
`best_score = max(best_score, score)` over the user's faces. -/
noncomputable def bestFaceScore (q : List ℝ) (u : UserDoc) : ℝ :=
  u.faces.foldl (fun b e => max b (cosine_similarity q e)) 0

/-- The `try:` block of the ANN branch of `find_best_match`: query
`knn(query, k=1)`; on an empty reply return `None`; otherwise fetch the
candidate identity (a store failure here raises, to be caught by the
enclosing `except Exception`), return `None` when it no longer exists, and
otherwise re-score precisely. The raw approximate score is bound but never
used. -/
noncomputable def annAttempt (oc : KnnOutcome) (s : Store) (q : List ℝ) :
    Except Unit (Option MatchResult) :=
  match oc with
  | .raise => .error ()
  | .ok [] => .ok none
  | .ok ((cid, _approxSim) :: _) =>
    match findOne s cid with
    | .error e => .error e
    | .ok none => .ok none
    | .ok (some u) => .ok (some ⟨u.uid, u.name, bestFaceScore q u⟩)

/-- One iteration of the naive-scan loop of `find_best_match`: the running
state is `(best, best_score)` and a candidate replaces it only on a strict
improvement `score > best_score`. -/
noncomputable def naiveStep (q : List ℝ) (acc : Option MatchResult × ℝ)
    (t : String × String × List ℝ) : Option MatchResult × ℝ :=
  if acc.2 < cosine_similarity q t.2.2 then
    (some ⟨t.1, t.2.1, cosine_similarity q t.2.2⟩, cosine_similarity q t.2.2)
  else acc

/-- The `# fallback naive scan` tail of `find_best_match`: `best = None`,
`best_score = -1.0`, and a strict-improvement update per embedding. -/
noncomputable def naiveBest (s : Store) (q : List ℝ) : Except Unit (Option MatchResult) :=
  match all_embeddings_with_user s with
  | .error e => .error e
  | .ok l => .ok ((l.foldl (naiveStep q) (none, -1)).1)

/-- `find_best_match(query_embedding)` from `backend/db.py` (production
branch; the `DEV_MODE_NO_DB` mock short-circuit is omitted). `ann` models
the module-level `_ann_index` and the outcome of its `knn` call; any
exception from the ANN attempt is caught and the naive scan runs instead. -/
noncomputable def find_best_match (ann : Option KnnOutcome) (s : Store) (q : List ℝ) :
    Except Unit (Option MatchResult) :=
  match ensureDb s with
  | .error e => .error e
  | .ok _ =>
    match ann with
    | none => naiveBest s q
    | some oc =>
      match annAttempt oc s q with
      | .ok r => .ok r
      | .error _ => naiveBest s q

/-- `verify_user(user_id, query_embedding)` from `backend/db.py`. -/
noncomputable def verify_user (s : Store) (user_id : String) (q : List ℝ) : Except Unit ℝ :=
  match ensureDb s with
  | .error e => .error e
  | .ok _ =>
    match findOne s user_id with
    | .error e => .error e
    | .ok none => .ok 0
    | .ok (some u) => .ok (bestFaceScore q u)

/-!
### The bounded min-heap of `search_candidates`

The Python heap holds `(score, result_dict)` tuples; the heap is
represented here by its contents in ascending score order, so the heap
root `heap[0]` is the head of the list.

Python's tuple comparison decides on the scores when they differ; when two
scores tie it falls through to the result dicts: equal dicts compare equal
(no error), but distinct dicts are unorderable and `heapq` raises
`TypeError`. Whether a given tied pair is actually compared depends on the
binary heap's array layout, so on tied inputs the program may either raise
or succeed. The operations below are total, score-only models: they agree
with `heapq` exactly on inputs whose scores are pairwise distinct (then no
comparison ever reaches the dicts, the score minimum is unique, and the
multiset semantics coincide), and the top-k theorem assumes exactly that;
nothing is asserted about tied inputs.
-/

def rLE (a b : MatchResult) : Prop := a.confidence ≤ b.confidence

def rGE (a b : MatchResult) : Prop := b.confidence ≤ a.confidence

noncomputable instance : DecidableRel rLE :=
  fun a b => inferInstanceAs (Decidable (a.confidence ≤ b.confidence))

noncomputable instance : DecidableRel rGE :=
  fun a b => inferInstanceAs (Decidable (b.confidence ≤ a.confidence))

instance : IsTotal MatchResult rLE := ⟨fun a b => le_total a.confidence b.confidence⟩

instance : IsTrans MatchResult rLE := ⟨fun _ _ _ hab hbc => le_trans hab hbc⟩

instance : IsTotal MatchResult rGE := ⟨fun a b => le_total b.confidence a.confidence⟩

instance : IsTrans MatchResult rGE := ⟨fun _ _ _ hab hbc => le_trans hbc hab⟩

/-- `heapq.heappush`, score-only: the multiset grows by the new entry and
the minimum stays at the head. Faithful for pairwise-distinct scores; a
push whose sift-up compares two tied entries with distinct dicts would
raise `TypeError` in the program, a case this total model does not cover. -/
noncomputable def heapPush (h : List MatchResult) (x : MatchResult) : List MatchResult :=
  List.orderedInsert rLE x h

/-- `heapq.heappushpop(heap, item)`, score-only: on a non-empty heap whose
minimum scores strictly below the new item, the minimum is popped and the
item pushed; when the item scores strictly below the minimum the heap is
unchanged (the item is returned and dropped by the caller). On an empty
heap the item passes straight through. When item and `heap[0]` tie on score
with distinct dicts, the program's very first comparison `heap[0] < item`
raises `TypeError`; that tie case is outside this total model's faithful
domain (the top-k theorem assumes pairwise-distinct scores). -/
noncomputable def heapPushPop (h : List MatchResult) (x : MatchResult) : List MatchResult :=
  match h with
  | [] => []
  | m :: rest =>
    if m.confidence < x.confidence then List.orderedInsert rLE x rest else m :: rest

/-- The result record built for one scanned embedding of
`search_candidates`: the confidence is the precise cosine score. -/
noncomputable def mkEntry (q : List ℝ) (t : String × String × List ℝ) : MatchResult :=
  ⟨t.1, t.2.1, cosine_similarity q t.2.2⟩

/-- One iteration of the scan loop of `search_candidates`: push while the
heap is below capacity `k`, else push-pop. -/
noncomputable def heapStep (k : Nat) (q : List ℝ) (h : List MatchResult)
    (t : String × String × List ℝ) : List MatchResult :=
  if h.length < k then heapPush h (mkEntry q t) else heapPushPop h (mkEntry q t)

/-- The `# naive heap-based scan` tail of `search_candidates`: one bounded
heap pass over the store followed by `sorted(heap, key=lambda x: -x[0])`
(the final sort keys on the score alone, so it never compares dicts).
Faithful on scans whose scores are pairwise distinct; see the heap note
above for the program's `TypeError` on ties. -/
noncomputable def exactTopK (s : Store) (q : List ℝ) (k : Nat) :
    Except Unit (List MatchResult) :=
  match all_embeddings_with_user s with
  | .error e => .error e
  | .ok l => .ok (List.insertionSort rGE (l.foldl (heapStep k q) []))

/-- The candidate-building loop in the ANN branch of `search_candidates`:
each `(uid, sim)` from `knn` is resolved against the store; a vanished user
is skipped (`continue`); a store failure raises (to be caught by the
enclosing `try`). The approximate similarity is stored as the confidence
unchanged — no precise re-scoring. -/
def annCandidates (s : Store) : List (String × ℝ) → Except Unit (List MatchResult)
  | [] => .ok []
  | (uid, sim) :: rest =>
    match findOne s uid with
    | .error e => .error e
    | .ok none => annCandidates s rest
    | .ok (some u) =>
      match annCandidates s rest with
      | .error e => .error e
      | .ok l => .ok (⟨u.uid, u.name, sim⟩ :: l)

/-- `search_candidates(query_embedding, top_k)` from `backend/db.py`: the
ANN attempt's results are returned as-is when non-empty; an exception in
the attempt or an empty result list falls back to the exact heap scan. -/
noncomputable def search_candidates (ann : Option KnnOutcome) (s : Store) (q : List ℝ)
    (top_k : Nat) : Except Unit (List MatchResult) :=
  match ensureDb s with
  | .error e => .error e
  | .ok _ =>
    match ann with
    | none => exactTopK s q top_k
    | some .raise => exactTopK s q top_k
    | some (.ok knn) =>
      match annCandidates s knn with
      | .error _ => exactTopK s q top_k
      | .ok [] => exactTopK s q top_k
      | .ok results => .ok results

/-!
### `ANNIndex` from `backend/ann_index.py` (hnswlib-backed variant)

The native hnswlib graph is external; the wrapper state modeled here is
its own: dimension, space, the `_initialized` flag and the id list. The
native `knn_query` is the oracle argument, returning `(label, distance)`
pairs.
-/

structure ANNIndex where
  dim : Nat
  space : String
  initialized : Bool
  ids : List String

/-- `ANNIndex.__init__(dim, space)`. -/
def ANNIndex.init (dim : Nat) (space : String) : ANNIndex :=
  { dim := dim, space := space, initialized := false, ids := [] }

/-- `ANNIndex.build(vectors, ids)`: `if not vectors: return` — building with
zero vectors is a no-op; otherwise the native index is initialized, the
items added, and `_initialized` set. -/
def ANNIndex.build (idx : ANNIndex) (vectors : List (List ℝ)) (ids : List String) :
    ANNIndex :=
  if vectors.isEmpty then idx else { idx with initialized := true, ids := ids }

/-- `ANNIndex.knn(vector, k)`: returns `[]` when `_initialized` is false;
otherwise queries the native index and converts each distance to a
similarity `1.0 - dist`. -/
noncomputable def ANNIndex.knn (idx : ANNIndex)
    (oracle : List ℝ → Nat → List (String × ℝ)) (v : List ℝ) (k : Nat) :
    List (String × ℝ) :=
  if idx.initialized = false then [] else (oracle v k).map fun p => (p.1, 1 - p.2)

/-!
### Helper lemmas about the engine
-/

lemma annAttempt_up_ok (knn : List (String × ℝ)) (us : List UserDoc) (q : List ℝ) :
    ∃ r, annAttempt (.ok knn) (.up us) q = .ok r := by
  cases knn with
  | nil => exact ⟨none, rfl⟩
  | cons p rest =>
    obtain ⟨cid, sim⟩ := p
    cases h : List.find? (fun u => u.uid == cid) us with
    | none => exact ⟨none, by simp [annAttempt, findOne, h]⟩
    | some u =>
      exact ⟨some ⟨u.uid, u.name, bestFaceScore q u⟩, by simp [annAttempt, findOne, h]⟩

lemma naiveBest_up_ok (us : List UserDoc) (q : List ℝ) :
    ∃ r, naiveBest (.up us) q = .ok r :=
  ⟨_, rfl⟩

/-- C8 -- `find_best_match` against a connected but empty store returns
`None` (`.ok none`) and never raises, whatever the approximate index does. -/
theorem C8_empty_store_none_never_raises (ann : Option KnnOutcome) (q : List ℝ) :
    find_best_match ann (.up []) q = .ok none := by
  cases ann with
  | none => rfl
  | some oc =>
    cases oc with
    | raise => rfl
    | ok knn =>
      cases knn with
      | nil => rfl
      | cons p rest =>
        obtain ⟨cid, sim⟩ := p
        rfl

/-- C9 -- building the approximate index with zero vectors is a no-op that
leaves it unbuilt, and `knn` on an unbuilt index returns `[]` instead of
raising. -/
theorem C9_build_empty_noop_knn_empty :
    (∀ idx ids, ANNIndex.build idx [] ids = idx) ∧
    (∀ dim space, (ANNIndex.init dim space).initialized = false) ∧
    (∀ idx oracle v k, idx.initialized = false → ANNIndex.knn idx oracle v k = []) := by
  refine ⟨fun idx ids => rfl, fun dim space => rfl, fun idx oracle v k h => ?_⟩
  simp [ANNIndex.knn, h]

/-- C9 witness: a freshly initialized index built with zero vectors is
unchanged and unbuilt, and a concrete `knn` query on it returns `[]`. -/
theorem C9_witness :
    ANNIndex.build (ANNIndex.init 128 "cosine") [] ["a"] = ANNIndex.init 128 "cosine" ∧
    ANNIndex.knn (ANNIndex.init 128 "cosine") (fun _ _ => [("a", 1 / 2)]) [1] 5 = [] :=
  ⟨C9_build_empty_noop_knn_empty.1 _ _,
   C9_build_empty_noop_knn_empty.2.2 _ _ _ _ rfl⟩

/-- C2 -- any exception on the approximate path of `find_best_match` (index
query or precise re-score) is caught and the call falls back to the naive
scan; with a healthy store the caller never sees a failure from the
approximate path, while a store failure on the exact-scan path propagates
as `DBUnavailable`. -/
theorem C2_approx_caught_store_propagated :
    (∀ s q, find_best_match (some .raise) s q = naiveBest s q) ∧
    (∀ q cid sim rest,
      find_best_match (some (.ok ((cid, sim) :: rest))) .unreachable q =
        naiveBest .unreachable q) ∧
    (∀ q, naiveBest .unreachable q = .error ()) ∧
    (∀ oc us q, ∃ r, find_best_match (some oc) (.up us) q = .ok r) := by
  refine ⟨?_, fun q cid sim rest => rfl, fun q => rfl, ?_⟩
  · intro s q
    cases s <;> rfl
  · intro oc us q
    cases oc with
    | raise =>
      obtain ⟨r, hr⟩ := naiveBest_up_ok us q
      exact ⟨r, hr⟩
    | ok knn =>
      obtain ⟨r, hr⟩ := annAttempt_up_ok knn us q
      exact ⟨r, by simp [find_best_match, ensureDb, hr]⟩

lemma annCandidates_conf_from_index (us : List UserDoc) :
    ∀ (knn : List (String × ℝ)) (res : List MatchResult),
      annCandidates (.up us) knn = .ok res →
      ∀ r ∈ res, r.confidence ∈ knn.map (fun p => p.2) := by
  intro knn
  induction knn with
  | nil =>
    intro res h r hr
    simp only [annCandidates, Except.ok.injEq] at h
    subst h
    simp at hr
  | cons p rest ih =>
    obtain ⟨uid, sim⟩ := p
    intro res h r hr
    cases hfind : List.find? (fun u => u.uid == uid) us with
    | none =>
      rw [annCandidates] at h
      simp only [findOne, hfind] at h
      exact List.mem_cons_of_mem _ (ih res h r hr)
    | some u =>
      rw [annCandidates] at h
      simp only [findOne, hfind] at h
      cases hrec : annCandidates (.up us) rest with
      | error e => rw [hrec] at h; simp at h
      | ok l =>
        rw [hrec] at h
        simp only [Except.ok.injEq] at h
        subst h
        rcases List.mem_cons.mp hr with hr1 | hr2
        · subst hr1; simp
        · exact List.mem_cons_of_mem _ (ih l hrec r hr2)

/-- C5 -- a non-empty ANN result list of `search_candidates` is returned
as-is, each confidence being the index's approximate similarity; a zero
result (empty `knn`, all candidates vanished, no index, index raised, or a
store failure inside the ANN loop) falls back entirely to the exact
heap-based top-k scan. -/
theorem C5_approx_as_is_zero_falls_back :
    (∀ us q k knn res, annCandidates (.up us) knn = .ok res → res ≠ [] →
      search_candidates (some (.ok knn)) (.up us) q k = .ok res ∧
      ∀ r ∈ res, r.confidence ∈ knn.map (fun p => p.2)) ∧
    (∀ s q k, search_candidates none s q k = exactTopK s q k) ∧
    (∀ s q k, search_candidates (some .raise) s q k = exactTopK s q k) ∧
    (∀ us q k knn, annCandidates (.up us) knn = .ok [] →
      search_candidates (some (.ok knn)) (.up us) q k = exactTopK (.up us) q k) ∧
    (∀ q k knn, search_candidates (some (.ok knn)) .unreachable q k =
      exactTopK .unreachable q k) := by
  refine ⟨?_, ?_, ?_, ?_, ?_⟩
  · intro us q k knn res h hne
    refine ⟨?_, annCandidates_conf_from_index us knn res h⟩
    cases res with
    | nil => exact absurd rfl hne
    | cons a l => simp [search_candidates, ensureDb, h]
  · intro s q k
    cases s <;> rfl
  · intro s q k
    cases s <;> rfl
  · intro us q k knn h
    simp [search_candidates, ensureDb, h]
  · intro q k knn
    cases knn with
    | nil => rfl
    | cons p rest =>
      obtain ⟨uid, sim⟩ := p
      rfl

/-- C5 witness: one identity, one non-empty ANN reply; the reply is
returned as-is with the index's similarity as confidence. -/
theorem C5_witness :
    annCandidates (.up [⟨"a", "A", [[1]]⟩]) [("a", 7 / 10)] =
      .ok [⟨"a", "A", 7 / 10⟩] ∧
    ([(⟨"a", "A", 7 / 10⟩ : MatchResult)] ≠ []) ∧
    search_candidates (some (.ok [("a", 7 / 10)])) (.up [⟨"a", "A", [[1]]⟩]) [2] 5 =
      .ok [⟨"a", "A", 7 / 10⟩] := by
  have h : annCandidates (.up [⟨"a", "A", [[1]]⟩]) [("a", 7 / 10)] =
      .ok [⟨"a", "A", 7 / 10⟩] := rfl
  exact ⟨h, by simp,
    (C5_approx_as_is_zero_falls_back.1 _ [2] 5 _ _ h (by simp)).1⟩

/-!
### Concrete similarity values used by witnesses and counterexamples
-/

lemma sumSq_single (x : ℝ) : sumSq [x] = x * x := by simp [sumSq]

lemma dotL_single (x y : ℝ) : dotL [x] [y] = x * y := by simp [dotL]

lemma normL_one : normL [(1 : ℝ)] = 1 := by
  rw [normL, sumSq_single]
  norm_num [Real.sqrt_one]

lemma normL_negone : normL [(-1 : ℝ)] = 1 := by
  rw [normL, sumSq_single]
  norm_num [Real.sqrt_one]

lemma normL_two : normL [(2 : ℝ)] = 2 := by
  rw [normL, sumSq_single,
    show (2 : ℝ) * 2 = 2 ^ 2 by norm_num,
    Real.sqrt_sq (by norm_num : (0 : ℝ) ≤ 2)]

lemma sim_one_one : cosine_similarity [(1 : ℝ)] [1] = 1 / (1 + eps) := by
  rw [cosine_similarity, dotL_single, normL_one]
  norm_num

lemma sim_one_negone : cosine_similarity [(1 : ℝ)] [-1] = -1 / (1 + eps) := by
  rw [cosine_similarity, dotL_single, normL_one, normL_negone]
  norm_num

lemma sim_one_two : cosine_similarity [(1 : ℝ)] [2] = 2 / (2 + eps) := by
  rw [cosine_similarity, dotL_single, normL_one, normL_two]
  norm_num

lemma one_add_eps_pos : (0 : ℝ) < 1 + eps := by nlinarith [eps_pos]

lemma sim_one_negone_neg : cosine_similarity [(1 : ℝ)] [-1] < 0 := by
  rw [sim_one_negone]
  exact div_neg_of_neg_of_pos (by norm_num) one_add_eps_pos

/-!
### The zero-floored per-identity maximum
-/

lemma foldl_max_init_le (q : List ℝ) :
    ∀ (l : List (List ℝ)) (init : ℝ),
      init ≤ l.foldl (fun b e => max b (cosine_similarity q e)) init
  | [], _ => le_refl _
  | e :: l, init =>
    le_trans (le_max_left _ _) (foldl_max_init_le q l (max init (cosine_similarity q e)))

lemma bestFaceScore_nonneg (q : List ℝ) (u : UserDoc) : 0 ≤ bestFaceScore q u :=
  foldl_max_init_le q u.faces 0

lemma foldl_max_mem_le (q : List ℝ) :
    ∀ (l : List (List ℝ)) (init : ℝ) (e : List ℝ), e ∈ l →
      cosine_similarity q e ≤ l.foldl (fun b e => max b (cosine_similarity q e)) init := by
  intro l
  induction l with
  | nil => intro init e he; simp at he
  | cons f l ih =>
    intro init e he
    rcases List.mem_cons.mp he with rfl | he2
    · exact le_trans (le_max_right _ _) (foldl_max_init_le q l _)
    · exact ih _ e he2

lemma bestFaceScore_mem_le (q : List ℝ) (u : UserDoc) (e : List ℝ) (he : e ∈ u.faces) :
    cosine_similarity q e ≤ bestFaceScore q u :=
  foldl_max_mem_le q u.faces 0 e he

lemma bestFaceScore_single (uid nm : String) (q e : List ℝ) :
    bestFaceScore q ⟨uid, nm, [e]⟩ = max 0 (cosine_similarity q e) := by
  unfold bestFaceScore
  rw [List.foldl_cons, List.foldl_nil]

/-- C1 -- amended: when an index snapshot exists and its `knn(query, k=1)`
yields a candidate still present in the store, `find_best_match` re-scores
it precisely against every one of its embeddings and reports the
zero-floored maximum `max(0.0, max precise similarity)` (the re-score
accumulator starts at `0.0`). The raw approximate score `asim` is bound but
never reported: the result is the same for every `asim`. -/
theorem C1_ann_candidate_rescored_precisely (us : List UserDoc) (q : List ℝ)
    (cid : String) (asim : ℝ) (rest : List (String × ℝ)) (u : UserDoc)
    (h : findOne (.up us) cid = .ok (some u)) :
    find_best_match (some (.ok ((cid, asim) :: rest))) (.up us) q =
      .ok (some ⟨u.uid, u.name, bestFaceScore q u⟩) ∧
    0 ≤ bestFaceScore q u ∧
    (∀ e ∈ u.faces, cosine_similarity q e ≤ bestFaceScore q u) := by
  refine ⟨?_, bestFaceScore_nonneg q u, fun e he => bestFaceScore_mem_le q u e he⟩
  simp [find_best_match, ensureDb, annAttempt, h]

/-- C1 witness: a concrete store and index candidate realizing the amended
claim. -/
theorem C1_witness :
    findOne (.up [⟨"c", "C", [[1]]⟩]) "c" = .ok (some ⟨"c", "C", [[1]]⟩) ∧
    find_best_match (some (.ok [("c", 1 / 2)])) (.up [⟨"c", "C", [[1]]⟩]) [1] =
      .ok (some ⟨"c", "C", bestFaceScore [1] ⟨"c", "C", [[1]]⟩⟩) :=
  ⟨rfl, (C1_ann_candidate_rescored_precisely [⟨"c", "C", [[1]]⟩] [1] "c" (1 / 2) []
    ⟨"c", "C", [[1]]⟩ rfl).1⟩

/-- C1 counterexample: the candidate's only embedding has negative precise
similarity to the query, yet the reported confidence is `0.0`, not the
maximum precise similarity — the re-score is floored at zero, refuting the
claim as stated. -/
theorem C1_counterexample :
    find_best_match (some (.ok [("c", 9 / 10)])) (.up [⟨"c", "C", [[-1]]⟩]) [1] =
      .ok (some ⟨"c", "C", 0⟩) ∧
    cosine_similarity [(1 : ℝ)] [-1] < 0 := by
  have hb : bestFaceScore [1] ⟨"c", "C", [[-1]]⟩ = 0 := by
    rw [bestFaceScore_single]
    exact max_eq_left sim_one_negone_neg.le
  exact ⟨by simp [find_best_match, ensureDb, annAttempt, findOne, hb], sim_one_negone_neg⟩

/-- C6 -- amended: `verify_user` returns `0.0` when the identity does not
exist; when it exists it returns the zero-floored maximum
`max(0.0, max similarity)` over its embeddings — also `0.0` for an identity
with no embeddings. The result is never negative and never absent, but it
equals the true maximum similarity only when that maximum is non-negative. -/
theorem C6_verify_floored_max (us : List UserDoc) (uid : String) (q : List ℝ) :
    (findOne (.up us) uid = .ok none → verify_user (.up us) uid q = .ok 0) ∧
    (∀ u, findOne (.up us) uid = .ok (some u) →
      verify_user (.up us) uid q = .ok (bestFaceScore q u) ∧
      0 ≤ bestFaceScore q u ∧
      (u.faces = [] → bestFaceScore q u = 0) ∧
      (∀ e ∈ u.faces, cosine_similarity q e ≤ bestFaceScore q u)) := by
  constructor
  · intro h
    simp [verify_user, ensureDb, h]
  · intro u h
    refine ⟨by simp [verify_user, ensureDb, h], bestFaceScore_nonneg q u, ?_,
      fun e he => bestFaceScore_mem_le q u e he⟩
    intro hf
    simp [bestFaceScore, hf]

/-- C6 witness: an absent identity verifies to `0.0`; a present identity
verifies to its zero-floored maximum similarity, which is non-negative. -/
theorem C6_witness :
    findOne (.up [⟨"u", "U", [[1]]⟩]) "v" = .ok none ∧
    verify_user (.up [⟨"u", "U", [[1]]⟩]) "v" [1] = .ok 0 ∧
    findOne (.up [⟨"u", "U", [[1]]⟩]) "u" = .ok (some ⟨"u", "U", [[1]]⟩) ∧
    verify_user (.up [⟨"u", "U", [[1]]⟩]) "u" [1] =
      .ok (bestFaceScore [1] ⟨"u", "U", [[1]]⟩) ∧
    0 ≤ bestFaceScore [1] ⟨"u", "U", [[1]]⟩ :=
  ⟨rfl, (C6_verify_floored_max [⟨"u", "U", [[1]]⟩] "v" [1]).1 rfl, rfl,
    ((C6_verify_floored_max [⟨"u", "U", [[1]]⟩] "u" [1]).2 _ rfl).1,
    ((C6_verify_floored_max [⟨"u", "U", [[1]]⟩] "u" [1]).2 _ rfl).2.1⟩

/-- C6 counterexample: the identity's only embedding has negative similarity
to the query, yet `verify_user` reports `0.0` — not the maximum similarity
across the embedding set, refuting the claim as stated. -/
theorem C6_counterexample :
    verify_user (.up [⟨"u", "U", [[-1]]⟩]) "u" [1] = .ok 0 ∧
    cosine_similarity [(1 : ℝ)] [-1] < 0 := by
  have hb : bestFaceScore [1] ⟨"u", "U", [[-1]]⟩ = 0 := by
    rw [bestFaceScore_single]
    exact max_eq_left sim_one_negone_neg.le
  exact ⟨by simp [verify_user, ensureDb, findOne, hb], sim_one_negone_neg⟩

/-!
### Invariants of the naive scan of `find_best_match`
-/

lemma naiveStep_some (q : List ℝ) (acc : Option MatchResult × ℝ)
    (t : String × String × List ℝ) (h : acc.1.isSome = true) :
    ((naiveStep q acc t).1).isSome = true := by
  unfold naiveStep
  by_cases hc : acc.2 < cosine_similarity q t.2.2
  · rw [if_pos hc]
    rfl
  · rw [if_neg hc]; exact h

lemma foldl_naiveStep_some (q : List ℝ) :
    ∀ (l : List (String × String × List ℝ)) (acc : Option MatchResult × ℝ),
      acc.1.isSome = true → ((l.foldl (naiveStep q) acc).1).isSome = true
  | [], _, h => h
  | t :: l, acc, h => foldl_naiveStep_some q l _ (naiveStep_some q acc t h)

lemma foldl_naiveStep_conf (q : List ℝ) :
    ∀ (l : List (String × String × List ℝ)) (acc : Option MatchResult × ℝ),
      (∀ r, acc.1 = some r → -1 < r.confidence) →
      ∀ r, ((l.foldl (naiveStep q) acc).1) = some r → -1 < r.confidence := by
  intro l
  induction l with
  | nil => intro acc hacc r h; exact hacc r h
  | cons t l ih =>
    intro acc hacc r h
    refine ih _ ?_ r h
    intro r' h'
    unfold naiveStep at h'
    by_cases hc : acc.2 < cosine_similarity q t.2.2
    · rw [if_pos hc] at h'
      simp only [Option.some.injEq] at h'
      rw [← h']
      exact neg_one_lt_sim q t.2.2
    · rw [if_neg hc] at h'
      exact hacc r' h'

lemma naiveBest_some_conf (s : Store) (q : List ℝ) (r : MatchResult)
    (h : naiveBest s q = .ok (some r)) : -1 < r.confidence := by
  cases s with
  | notConnected => simp [naiveBest, all_embeddings_with_user] at h
  | unreachable => simp [naiveBest, all_embeddings_with_user] at h
  | up us =>
    simp only [naiveBest, all_embeddings_with_user, Except.ok.injEq] at h
    exact foldl_naiveStep_conf q _ (none, -1) (by simp) r h

/-- C10 -- whenever the store yields at least one embedding, the naive
fallback scan of `find_best_match` returns a non-absent result: every
cosine score strictly exceeds the `-1.0` sentinel (the `1e-10` slack in the
denominator keeps the ratio strictly above `-1`), so the first embedding
replaces the sentinel. -/
theorem C10_fallback_nonempty_returns_some (s : Store) (q : List ℝ)
    (l : List (String × String × List ℝ)) (h : all_embeddings_with_user s = .ok l)
    (hne : l ≠ []) :
    (∀ t ∈ l, -1 < cosine_similarity q t.2.2) ∧
    (∃ r, naiveBest s q = .ok (some r)) ∧
    (∃ r, find_best_match none s q = .ok (some r)) := by
  cases s with
  | notConnected => simp [all_embeddings_with_user] at h
  | unreachable => simp [all_embeddings_with_user] at h
  | up us =>
    refine ⟨fun t _ => neg_one_lt_sim q t.2.2, ?_⟩
    cases l with
    | nil => exact absurd rfl hne
    | cons t rest =>
      have hfirst : naiveStep q (none, -1) t =
          (some ⟨t.1, t.2.1, cosine_similarity q t.2.2⟩, cosine_similarity q t.2.2) := by
        unfold naiveStep
        rw [if_pos (neg_one_lt_sim q t.2.2)]
      have hfold : (((t :: rest).foldl (naiveStep q) (none, -1)).1).isSome = true := by
        rw [List.foldl_cons, hfirst]
        exact foldl_naiveStep_some q rest _ rfl
      obtain ⟨r, hr⟩ := Option.isSome_iff_exists.mp hfold
      have hnb : naiveBest (.up us) q = .ok (some r) := by
        simp only [naiveBest, all_embeddings_with_user, Except.ok.injEq] at h ⊢
        rw [h, hr]
      exact ⟨⟨r, hnb⟩, ⟨r, hnb⟩⟩

/-- C10 witness: a one-identity store; the hypotheses hold and the scan
returns a result. -/
theorem C10_witness :
    all_embeddings_with_user (.up [⟨"a", "A", [[1]]⟩]) = .ok [("a", "A", [(1 : ℝ)])] ∧
    ([(("a", "A", [(1 : ℝ)]) : String × String × List ℝ)] ≠ []) ∧
    ((∀ t ∈ [(("a", "A", [(1 : ℝ)]) : String × String × List ℝ)],
        -1 < cosine_similarity [1] t.2.2) ∧
      (∃ r, naiveBest (.up [⟨"a", "A", [[1]]⟩]) [1] = .ok (some r)) ∧
      (∃ r, find_best_match none (.up [⟨"a", "A", [[1]]⟩]) [1] = .ok (some r))) :=
  ⟨rfl, by simp,
    C10_fallback_nonempty_returns_some (.up [⟨"a", "A", [[1]]⟩]) [1] _ rfl (by simp)⟩

/-!
### Invariants of the bounded heap of `search_candidates`
-/

lemma mem_heapPush {h : List MatchResult} {x y : MatchResult}
    (hy : y ∈ heapPush h x) : y = x ∨ y ∈ h := by
  have := (List.perm_orderedInsert rLE x h).mem_iff.mp hy
  simpa using this

lemma mem_heapPushPop {h : List MatchResult} {x y : MatchResult}
    (hy : y ∈ heapPushPop h x) : y = x ∨ y ∈ h := by
  cases h with
  | nil => simp [heapPushPop] at hy
  | cons m rest =>
    rw [heapPushPop] at hy
    by_cases hc : m.confidence < x.confidence
    · rw [if_pos hc] at hy
      have := (List.perm_orderedInsert rLE x rest).mem_iff.mp hy
      rcases List.mem_cons.mp this with h1 | h2
      · exact Or.inl h1
      · exact Or.inr (List.mem_cons_of_mem _ h2)
    · rw [if_neg hc] at hy
      exact Or.inr hy

lemma mem_heapStep {k : Nat} {q : List ℝ} {h : List MatchResult}
    {t : String × String × List ℝ} {y : MatchResult}
    (hy : y ∈ heapStep k q h t) : y = mkEntry q t ∨ y ∈ h := by
  rw [heapStep] at hy
  by_cases hl : h.length < k
  · rw [if_pos hl] at hy
    exact mem_heapPush hy
  · rw [if_neg hl] at hy
    exact mem_heapPushPop hy

lemma foldl_heapStep_mem (k : Nat) (q : List ℝ) :
    ∀ (l : List (String × String × List ℝ)) (h : List MatchResult) (y : MatchResult),
      y ∈ l.foldl (heapStep k q) h → y ∈ h ∨ ∃ t ∈ l, y = mkEntry q t := by
  intro l
  induction l with
  | nil => intro h y hy; exact Or.inl hy
  | cons t l ih =>
    intro h y hy
    rcases ih _ y hy with h1 | h2
    · rcases mem_heapStep h1 with e1 | e2
      · exact Or.inr ⟨t, by simp, e1⟩
      · exact Or.inl e2
    · obtain ⟨t', ht', he⟩ := h2
      exact Or.inr ⟨t', List.mem_cons_of_mem _ ht', he⟩

lemma exactTopK_mem_conf (s : Store) (q : List ℝ) (k : Nat)
    (out : List MatchResult) (r : MatchResult)
    (h : exactTopK s q k = .ok out) (hr : r ∈ out) : -1 < r.confidence := by
  cases s with
  | notConnected => simp [exactTopK, all_embeddings_with_user] at h
  | unreachable => simp [exactTopK, all_embeddings_with_user] at h
  | up us =>
    simp only [exactTopK, all_embeddings_with_user, Except.ok.injEq] at h
    rw [← h] at hr
    have hr2 := (List.perm_insertionSort rGE _).mem_iff.mp hr
    rcases foldl_heapStep_mem k q _ [] r hr2 with h1 | h2
    · simp at h1
    · obtain ⟨t, _, rfl⟩ := h2
      exact neg_one_lt_sim q t.2.2

/-!
### Concrete single-entry evaluations
-/

lemma keepFaces_single {e : List ℝ} (he : e ≠ []) : keepFaces [e] = [e] := by
  cases e with
  | nil => exact absurd rfl he
  | cons a l => rfl

lemma all_embeddings_single (uid nm : String) {e : List ℝ} (he : e ≠ []) :
    all_embeddings_with_user (.up [⟨uid, nm, [e]⟩]) = .ok [(uid, nm, e)] := by
  simp [all_embeddings_with_user, keepFaces_single he]

lemma naiveBest_single (uid nm : String) (e : List ℝ) (he : e ≠ []) (q : List ℝ) :
    naiveBest (.up [⟨uid, nm, [e]⟩]) q = .ok (some ⟨uid, nm, cosine_similarity q e⟩) := by
  simp only [naiveBest, all_embeddings_single uid nm he, List.foldl_cons, List.foldl_nil,
    naiveStep]
  rw [if_pos (neg_one_lt_sim q e)]

lemma exactTopK_single (uid nm : String) (e : List ℝ) (he : e ≠ []) (q : List ℝ) :
    exactTopK (.up [⟨uid, nm, [e]⟩]) q 1 = .ok [⟨uid, nm, cosine_similarity q e⟩] := by
  simp [exactTopK, all_embeddings_single uid nm he, heapStep, heapPush, mkEntry]

/-- C4 -- amended: confidences reported by the approximate re-score path of
`find_best_match` and by `verify_user` are never negative (both are floored
at `0.0`); every confidence reported by `find_best_match` on any path and
by the exact heap scan of `search_candidates` is strictly greater than
`-1.0`, but the exact-scan paths apply no zero floor and may report
negative confidences; and the approximate path of `search_candidates`
passes the index's similarity through as the confidence unchanged, with no
bound enforced at all (any real, e.g. `-5`, is reported as-is). -/
theorem C4_confidence_bounds :
    (∀ us q cid asim rest u r, findOne (.up us) cid = .ok (some u) →
      find_best_match (some (.ok ((cid, asim) :: rest))) (.up us) q = .ok (some r) →
      0 ≤ r.confidence) ∧
    (∀ ann s q r, find_best_match ann s q = .ok (some r) → -1 < r.confidence) ∧
    (∀ s q k out r, exactTopK s q k = .ok out → r ∈ out → -1 < r.confidence) ∧
    (∀ s uid q x, verify_user s uid q = .ok x → 0 ≤ x) ∧
    (∀ (us : List UserDoc) (uid : String) (u : UserDoc) (x : ℝ) (q : List ℝ) (k : Nat),
      List.find? (fun w => w.uid == uid) us = some u →
      search_candidates (some (.ok [(uid, x)])) (.up us) q k = .ok [⟨u.uid, u.name, x⟩]) := by
  refine ⟨?_, ?_, exactTopK_mem_conf, ?_, ?_⟩
  · intro us q cid asim rest u r h h2
    simp only [find_best_match, ensureDb, annAttempt, h] at h2
    simp only [Except.ok.injEq, Option.some.injEq] at h2
    rw [← h2]
    exact bestFaceScore_nonneg q u
  · intro ann s q r h
    cases s with
    | notConnected => simp [find_best_match, ensureDb] at h
    | unreachable =>
      cases ann with
      | none => exact naiveBest_some_conf Store.unreachable q r h
      | some oc =>
        cases oc with
        | raise => exact naiveBest_some_conf Store.unreachable q r h
        | ok knn =>
          cases knn with
          | nil => simp [find_best_match, ensureDb, annAttempt] at h
          | cons p rest =>
            obtain ⟨cid, sim⟩ := p
            exact naiveBest_some_conf Store.unreachable q r h
    | up us =>
      cases ann with
      | none => exact naiveBest_some_conf (Store.up us) q r h
      | some oc =>
        cases oc with
        | raise => exact naiveBest_some_conf (Store.up us) q r h
        | ok knn =>
          cases knn with
          | nil => simp [find_best_match, ensureDb, annAttempt] at h
          | cons p rest =>
            obtain ⟨cid, sim⟩ := p
            cases hfind : List.find? (fun u => u.uid == cid) us with
            | none =>
              simp [find_best_match, ensureDb, annAttempt, findOne, hfind] at h
            | some u =>
              simp only [find_best_match, ensureDb, annAttempt, findOne, hfind,
                Except.ok.injEq, Option.some.injEq] at h
              rw [← h]
              have := bestFaceScore_nonneg q u
              linarith
  · intro s uid q x h
    cases s with
    | notConnected => simp [verify_user, ensureDb] at h
    | unreachable => simp [verify_user, ensureDb, findOne] at h
    | up us =>
      cases hfind : List.find? (fun u => u.uid == uid) us with
      | none =>
        simp only [verify_user, ensureDb, findOne, hfind, Except.ok.injEq] at h
        rw [← h]
      | some u =>
        simp only [verify_user, ensureDb, findOne, hfind, Except.ok.injEq] at h
        rw [← h]
        exact bestFaceScore_nonneg q u
  · intro us uid u x q k hfind
    simp [search_candidates, ensureDb, annCandidates, findOne, hfind]

/-- C4 witness: concrete runs of each path realizing the amended bounds. -/
theorem C4_witness :
    findOne (.up [⟨"a", "A", [[1]]⟩]) "a" = .ok (some ⟨"a", "A", [[1]]⟩) ∧
    find_best_match (some (.ok [("a", 1 / 2)])) (.up [⟨"a", "A", [[1]]⟩]) [1] =
      .ok (some ⟨"a", "A", bestFaceScore [1] ⟨"a", "A", [[1]]⟩⟩) ∧
    0 ≤ bestFaceScore [1] ⟨"a", "A", [[1]]⟩ ∧
    find_best_match none (.up [⟨"a", "A", [[1]]⟩]) [1] =
      .ok (some ⟨"a", "A", cosine_similarity [1] [1]⟩) ∧
    -1 < cosine_similarity [(1 : ℝ)] [1] ∧
    exactTopK (.up [⟨"a", "A", [[1]]⟩]) [1] 1 =
      .ok [⟨"a", "A", cosine_similarity [1] [1]⟩] ∧
    verify_user (.up [⟨"a", "A", [[1]]⟩]) "a" [1] =
      .ok (bestFaceScore [1] ⟨"a", "A", [[1]]⟩) ∧
    0 ≤ bestFaceScore [1] ⟨"a", "A", [[1]]⟩ ∧
    search_candidates (some (.ok [("a", -5)])) (.up [⟨"a", "A", [[1]]⟩]) [1] 3 =
      .ok [⟨"a", "A", -5⟩] ∧
    (-5 : ℝ) < -1 := by
  have hnb : find_best_match none (.up [⟨"a", "A", [[1]]⟩]) [1] =
      .ok (some ⟨"a", "A", cosine_similarity [1] [1]⟩) :=
    naiveBest_single "a" "A" [1] (by simp) [1]
  have htop := exactTopK_single "a" "A" [1] (by simp) [1]
  refine ⟨rfl, rfl,
    C4_confidence_bounds.1 [⟨"a", "A", [[1]]⟩] [1] "a" (1 / 2) [] ⟨"a", "A", [[1]]⟩ _ rfl rfl,
    hnb, ?_, htop, rfl,
    C4_confidence_bounds.2.2.2.1 (.up [⟨"a", "A", [[1]]⟩]) "a" [1] _ rfl,
    C4_confidence_bounds.2.2.2.2 [⟨"a", "A", [[1]]⟩] "a" ⟨"a", "A", [[1]]⟩ (-5) [1] 3 rfl,
    by norm_num⟩
  have := C4_confidence_bounds.2.1 none (.up [⟨"a", "A", [[1]]⟩]) [1]
    ⟨"a", "A", cosine_similarity [1] [1]⟩ hnb
  exact this

/-- C4 counterexample: with no index and a store whose only embedding is
anti-parallel to the query, the naive fallback of `find_best_match` reports
a strictly negative confidence, refuting the claim as stated. -/
theorem C4_counterexample :
    find_best_match none (.up [⟨"b", "B", [[-1]]⟩]) [1] =
      .ok (some ⟨"b", "B", -1 / (1 + eps)⟩) ∧
    -1 / (1 + eps) < (0 : ℝ) := by
  have h := naiveBest_single "b" "B" [-1] (by simp) [1]
  rw [sim_one_negone] at h
  exact ⟨h, div_neg_of_neg_of_pos (by norm_num) one_add_eps_pos⟩

/-!
### Sortedness, size and permutation invariants of the bounded heap
-/

lemma heapPush_sorted {h : List MatchResult} (hs : h.Sorted rLE) (x : MatchResult) :
    (heapPush h x).Sorted rLE :=
  List.Sorted.orderedInsert x h hs

lemma heapPushPop_sorted {h : List MatchResult} (hs : h.Sorted rLE) (x : MatchResult) :
    (heapPushPop h x).Sorted rLE := by
  cases h with
  | nil => simp [heapPushPop]
  | cons m rest =>
    rw [heapPushPop]
    by_cases hc : m.confidence < x.confidence
    · rw [if_pos hc]
      exact List.Sorted.orderedInsert x rest hs.of_cons
    · rw [if_neg hc]
      exact hs

lemma heapStep_sorted {k : Nat} {q : List ℝ} {h : List MatchResult}
    {t : String × String × List ℝ} (hs : h.Sorted rLE) :
    (heapStep k q h t).Sorted rLE := by
  rw [heapStep]
  by_cases hl : h.length < k
  · rw [if_pos hl]
    exact heapPush_sorted hs _
  · rw [if_neg hl]
    exact heapPushPop_sorted hs _

lemma heapPushPop_length (h : List MatchResult) (x : MatchResult) :
    (heapPushPop h x).length = h.length := by
  cases h with
  | nil => rfl
  | cons m rest =>
    rw [heapPushPop]
    by_cases hc : m.confidence < x.confidence
    · rw [if_pos hc, List.orderedInsert_length, List.length_cons]
    · rw [if_neg hc]

lemma heapStep_length_le {k : Nat} {q : List ℝ} {h : List MatchResult}
    {t : String × String × List ℝ} (hl : h.length ≤ k) :
    (heapStep k q h t).length ≤ k := by
  rw [heapStep]
  by_cases hlt : h.length < k
  · rw [if_pos hlt, heapPush, List.orderedInsert_length]
    omega
  · rw [if_neg hlt, heapPushPop_length]
    exact hl

lemma foldl_heapStep_length (k : Nat) (q : List ℝ) :
    ∀ (l : List (String × String × List ℝ)) (h : List MatchResult),
      h.length ≤ k → (l.foldl (heapStep k q) h).length ≤ k
  | [], _, hl => hl
  | _ :: l, h, hl => foldl_heapStep_length k q l _ (heapStep_length_le hl)

lemma foldl_heapStep_perm (k : Nat) (q : List ℝ) :
    ∀ (l : List (String × String × List ℝ)) (h : List MatchResult),
      h.length + l.length ≤ k →
      (l.foldl (heapStep k q) h).Perm (h ++ l.map (mkEntry q)) := by
  intro l
  induction l with
  | nil => intro h _; simp
  | cons t l ih =>
    intro h hcap
    simp only [List.length_cons] at hcap
    have hlt : h.length < k := by omega
    simp only [List.foldl_cons, List.map_cons]
    rw [heapStep, if_pos hlt]
    have hlen : (heapPush h (mkEntry q t)).length = h.length + 1 := by
      rw [heapPush, List.orderedInsert_length]
    have hrec := ih (heapPush h (mkEntry q t)) (by omega)
    refine hrec.trans ?_
    have hp : (heapPush h (mkEntry q t)).Perm (mkEntry q t :: h) :=
      List.perm_orderedInsert rLE _ _
    refine (hp.append_right _).trans ?_
    rw [List.cons_append]
    exact List.perm_middle.symm

/-- C3 -- amended: on a scan whose similarity scores are pairwise distinct
(for tied scores between distinct result dicts the program's `heapq` tuple
comparison raises `TypeError`, layout-dependently, so nothing is asserted
there), the exact heap scan returns results in non-increasing confidence
order and never more than `k` of them; the heap is bounded by `k` and,
when full, a new candidate replaces the current minimum (the head of the
ascending heap) only if it scores strictly higher, the heap staying
unchanged when it scores strictly lower. But the heap holds one entry per
stored *embedding*, not per identity: only when `k` is at least the total
number of stored embeddings is every entry (and hence every enrolled
identity) guaranteed to appear; `k ≥` number of distinct identities is not
sufficient, and one identity may occupy several slots. -/
theorem C3_exact_topk_heap (s : Store) (q : List ℝ) (k : Nat)
    (l : List (String × String × List ℝ)) (h : all_embeddings_with_user s = .ok l) :
    ((l.map fun t => cosine_similarity q t.2.2).Pairwise (· ≠ ·) →
      ∃ out, exactTopK s q k = .ok out ∧ out.Sorted rGE ∧ out.length ≤ k ∧
        (l.length ≤ k → out.Perm (l.map (mkEntry q)))) ∧
    (∀ (m x : MatchResult) (hp : List MatchResult), (m :: hp).Sorted rLE →
      (∀ y ∈ m :: hp, m.confidence ≤ y.confidence) ∧
      (x.confidence < m.confidence → heapPushPop (m :: hp) x = m :: hp) ∧
      (m.confidence < x.confidence →
        (heapPushPop (m :: hp) x).Perm (x :: hp) ∧
        (heapPushPop (m :: hp) x).length = (m :: hp).length)) := by
  constructor
  · intro _hdist
    cases s with
    | notConnected => simp [all_embeddings_with_user] at h
    | unreachable => simp [all_embeddings_with_user] at h
    | up us =>
      refine ⟨List.insertionSort rGE (l.foldl (heapStep k q) []), ?_, ?_, ?_, ?_⟩
      · simp only [exactTopK, h]
      · exact List.sorted_insertionSort rGE _
      · rw [(List.perm_insertionSort rGE _).length_eq]
        exact foldl_heapStep_length k q l [] (by simp)
      · intro hcap
        refine (List.perm_insertionSort rGE _).trans ?_
        have := foldl_heapStep_perm k q l [] (by simpa using hcap)
        simpa using this
  · intro m x hp hs
    refine ⟨?_, ?_, ?_⟩
    · intro y hy
      rcases List.mem_cons.mp hy with rfl | hy2
      · exact le_refl _
      · exact List.rel_of_sorted_cons hs y hy2
    · intro hc
      rw [heapPushPop, if_neg hc.asymm]
    · intro hc
      rw [heapPushPop, if_pos hc]
      exact ⟨List.perm_orderedInsert rLE x hp,
        by rw [List.orderedInsert_length, List.length_cons]⟩

/-- C3 witness: a one-embedding store with `k = 1` (pairwise-distinct
scores trivially) realizes the scan part, and concrete one-element heaps
realize both strict push-pop laws. -/
theorem C3_witness :
    all_embeddings_with_user (.up [⟨"a", "A", [[1]]⟩]) = .ok [("a", "A", [(1 : ℝ)])] ∧
    ([(("a", "A", [(1 : ℝ)]) : String × String × List ℝ)].map
      fun t => cosine_similarity [1] t.2.2).Pairwise (· ≠ ·) ∧
    (∃ out, exactTopK (.up [⟨"a", "A", [[1]]⟩]) [1] 1 = .ok out ∧ out.Sorted rGE ∧
      out.length ≤ 1 ∧
      ([(("a", "A", [(1 : ℝ)]) : String × String × List ℝ)].length ≤ 1 →
        out.Perm ([(("a", "A", [(1 : ℝ)]) : String × String × List ℝ)].map (mkEntry [1])))) ∧
    (heapPushPop [(⟨"m", "M", 0⟩ : MatchResult)] ⟨"x", "X", 1⟩).Perm [⟨"x", "X", 1⟩] ∧
    heapPushPop [(⟨"m", "M", 0⟩ : MatchResult)] ⟨"y", "Y", -5⟩ = [⟨"m", "M", 0⟩] := by
  have hthm := C3_exact_topk_heap (.up [⟨"a", "A", [[1]]⟩]) [1] 1
    [("a", "A", [(1 : ℝ)])] rfl
  have hmech := hthm.2 ⟨"m", "M", 0⟩ ⟨"x", "X", 1⟩ [] (by simp)
  have hmech2 := hthm.2 ⟨"m", "M", 0⟩ ⟨"y", "Y", -5⟩ [] (by simp)
  exact ⟨rfl, by simp, hthm.1 (by simp), (hmech.2.2 (by norm_num)).1,
    hmech2.2.1 (by norm_num)⟩

lemma orderedInsert_rLE_skip {x b : MatchResult} (l : List MatchResult) (h : ¬ rLE x b) :
    List.orderedInsert rLE x (b :: l) = b :: List.orderedInsert rLE x l := by
  rw [List.orderedInsert, if_neg h]

lemma orderedInsert_rGE_skip {x b : MatchResult} (l : List MatchResult) (h : ¬ rGE x b) :
    List.orderedInsert rGE x (b :: l) = b :: List.orderedInsert rGE x l := by
  rw [List.orderedInsert, if_neg h]

lemma two_add_eps_pos : (0 : ℝ) < 2 + eps := by nlinarith [eps_pos]

lemma sim_one_one_lt_sim_one_two :
    cosine_similarity [(1 : ℝ)] [1] < cosine_similarity [(1 : ℝ)] [2] := by
  rw [sim_one_one, sim_one_two, div_lt_div_iff one_add_eps_pos two_add_eps_pos]
  nlinarith [eps_pos]

lemma sim_one_negone_lt_sim_one_one :
    cosine_similarity [(1 : ℝ)] [-1] < cosine_similarity [(1 : ℝ)] [1] := by
  rw [sim_one_negone, sim_one_one, div_lt_div_iff one_add_eps_pos one_add_eps_pos]
  nlinarith [eps_pos]

/-- C3 counterexample: two enrolled identities and `k = 2` (so `k` equals
the number of distinct identities), yet identity `"b"` does not appear:
identity `"a"` has two embeddings that both outscore `"b"`'s and occupy the
whole heap. This refutes the claim's "for `k` ≥ the number of distinct
identities it returns all of them". -/
theorem C3_counterexample :
    exactTopK (.up [⟨"a", "A", [[1], [2]]⟩, ⟨"b", "B", [[-1]]⟩]) [1] 2 =
      .ok [⟨"a", "A", cosine_similarity [1] [2]⟩,
           ⟨"a", "A", cosine_similarity [1] [1]⟩] ∧
    (∀ r ∈ [(⟨"a", "A", cosine_similarity [1] [2]⟩ : MatchResult),
            ⟨"a", "A", cosine_similarity [1] [1]⟩], r.user_id ≠ "b") := by
  have h12 := sim_one_one_lt_sim_one_two
  have h31 := sim_one_negone_lt_sim_one_one
  constructor
  · have hemb : all_embeddings_with_user (.up [⟨"a", "A", [[1], [2]]⟩, ⟨"b", "B", [[-1]]⟩]) =
        .ok [("a", "A", [(1 : ℝ)]), ("a", "A", [2]), ("b", "B", [-1])] := rfl
    have step1 : heapStep 2 [1] [] ("a", "A", [(1 : ℝ)]) =
        [⟨"a", "A", cosine_similarity [1] [1]⟩] := by
      rw [heapStep, if_pos (by decide : ([] : List MatchResult).length < 2)]
      rfl
    have step2 : heapStep 2 [1] [⟨"a", "A", cosine_similarity [1] [1]⟩] ("a", "A", [(2 : ℝ)]) =
        [⟨"a", "A", cosine_similarity [1] [1]⟩, ⟨"a", "A", cosine_similarity [1] [2]⟩] := by
      rw [heapStep,
        if_pos (by decide : ([(⟨"a", "A", cosine_similarity [1] [1]⟩ : MatchResult)]).length < 2)]
      show List.orderedInsert rLE ⟨"a", "A", cosine_similarity [1] [2]⟩
        [⟨"a", "A", cosine_similarity [1] [1]⟩] = _
      rw [orderedInsert_rLE_skip _
        (show ¬ rLE ⟨"a", "A", cosine_similarity [1] [2]⟩
          ⟨"a", "A", cosine_similarity [1] [1]⟩ from not_le.mpr h12)]
      rfl
    have step3 : heapStep 2 [1]
        [⟨"a", "A", cosine_similarity [1] [1]⟩, ⟨"a", "A", cosine_similarity [1] [2]⟩]
        ("b", "B", [(-1 : ℝ)]) =
        [⟨"a", "A", cosine_similarity [1] [1]⟩, ⟨"a", "A", cosine_similarity [1] [2]⟩] := by
      rw [heapStep,
        if_neg (by decide : ¬ ([(⟨"a", "A", cosine_similarity [1] [1]⟩ : MatchResult),
          ⟨"a", "A", cosine_similarity [1] [2]⟩]).length < 2)]
      show heapPushPop
        [⟨"a", "A", cosine_similarity [1] [1]⟩, ⟨"a", "A", cosine_similarity [1] [2]⟩]
        ⟨"b", "B", cosine_similarity [1] [-1]⟩ = _
      rw [heapPushPop,
        if_neg (show ¬ (⟨"a", "A", cosine_similarity [1] [1]⟩ : MatchResult).confidence <
          (⟨"b", "B", cosine_similarity [1] [-1]⟩ : MatchResult).confidence from h31.not_lt)]
    have hsort : List.insertionSort rGE
        [⟨"a", "A", cosine_similarity [1] [1]⟩, ⟨"a", "A", cosine_similarity [1] [2]⟩] =
        [⟨"a", "A", cosine_similarity [1] [2]⟩, ⟨"a", "A", cosine_similarity [1] [1]⟩] := by
      simp only [List.insertionSort, List.orderedInsert_nil]
      rw [orderedInsert_rGE_skip _
        (show ¬ rGE ⟨"a", "A", cosine_similarity [1] [1]⟩
          ⟨"a", "A", cosine_similarity [1] [2]⟩ from not_le.mpr h12)]
      rfl
    simp only [exactTopK, hemb, List.foldl_cons, List.foldl_nil, step1, step2, step3, hsort]
  · intro r hr
    rcases List.mem_cons.mp hr with rfl | hr2
    · decide
    · rcases List.mem_cons.mp hr2 with rfl | hr3
      · decide
      · simp at hr3

end TrueFace
